import Mathlib

/-!
Shallow embedding of `src/activity.rs` from the rtimelog repository.

Timestamps (`chrono::NaiveDateTime`) are modelled as `Int` seconds on an
absolute axis; `chrono::Duration` is modelled as `Int` seconds.  Subtraction
of timestamps (`signed_duration_since`) becomes integer subtraction, and
`Duration::num_hours` / `Duration::num_minutes` become truncating division
by 3600 / 60, matching Rust's truncating `i64` division.  Rust's `%` on
`i64` is truncating remainder, modelled by `Int.tmod`.
-/

namespace Rtimelog

/-- Modelled from the spec: `Entry`, the external record produced by the log
store (`crate::store::Entry`, not part of the core sources): a timestamp
`stop` and a task label `task`, exactly as the core reads them. -/
structure Entry where
  stop : Int
  task : String
deriving DecidableEq, Repr

/-- Embeds `struct Activity`: one task name with its accumulated duration. -/
structure Activity where
  name : String
  duration : Int
deriving DecidableEq, Repr

/-- Embeds `struct Activities`: the activity list plus the two totals. -/
structure Activities where
  activities : List Activity
  total_work : Int
  total_slack : Int
deriving DecidableEq, Repr

/-- Embeds `entry.task.starts_with("**")`: true iff the first two characters
of the string are both `*` (the marker is pure ASCII, so byte-level and
character-level comparison agree). -/
def startsWithStars (s : String) : Bool :=
  match s.data with
  | c1 :: c2 :: _ => c1 = '*' && c2 = '*'
  | _ => false

/-- Embeds the `activities.iter_mut().find(|a| a.name == entry.task)` match:
add `d` to the first activity named `t`, or push a new one at the end. -/
def addToActivity : List Activity → String → Int → List Activity
  | [], t, d => [⟨t, d⟩]
  | a :: rest, t, d =>
    if a.name = t then ⟨a.name, a.duration + d⟩ :: rest
    else a :: addToActivity rest t d

/-- Embeds the `for entry in entries` loop of `Activities::new_from_entries`,
with the accumulator record and the `prev_stop` option threaded explicitly. -/
def loop : List Entry → Activities → Option Int → Activities
  | [], acc, _ => acc
  | e :: rest, acc, none => loop rest acc (some e.stop)
  | e :: rest, acc, some prev =>
    let d := e.stop - prev
    let acts := addToActivity acc.activities e.task d
    if startsWithStars e.task then
      loop rest ⟨acts, acc.total_work, acc.total_slack + d⟩ (some e.stop)
    else
      loop rest ⟨acts, acc.total_work + d, acc.total_slack⟩ (some e.stop)

/-- Embeds `Activities::new_from_entries`. -/
def Activities.new_from_entries (entries : List Entry) : Activities :=
  loop entries ⟨[], 0, 0⟩ none

/-- Embeds the same loop but with the `prev_stop.unwrap()` modelled as a
fallible operation: `none` is returned exactly where the Rust call would
panic (unwrapping `None`).  Used to state that construction never panics. -/
def loopChecked : List Entry → Activities → Option Int → Option Activities
  | [], acc, _ => some acc
  | e :: rest, acc, prev =>
    if prev.isNone then loopChecked rest acc (some e.stop)
    else
      match prev with
      | none => none
      | some p =>
        let d := e.stop - p
        let acts := addToActivity acc.activities e.task d
        if startsWithStars e.task then
          loopChecked rest ⟨acts, acc.total_work, acc.total_slack + d⟩ (some e.stop)
        else
          loopChecked rest ⟨acts, acc.total_work + d, acc.total_slack⟩ (some e.stop)

/-- Embeds Rust's `Display` for `i64`: decimal digits, with a leading `-`
for negative values (`Nat.repr` produces exactly the decimal digit string). -/
def i64Str (v : Int) : String :=
  if v < 0 then "-" ++ Nat.repr v.natAbs else Nat.repr v.natAbs

/-- Embeds the `{:>2}` format directive: right-align in width 2, filling
with spaces on the left when the rendered string is shorter than 2. -/
def alignRight2 (s : String) : String :=
  String.mk (List.replicate (2 - s.length) ' ') ++ s

/-- Embeds `Duration::num_hours`: whole hours, truncated toward zero. -/
def num_hours (d : Int) : Int := d.tdiv 3600

/-- Embeds `Duration::num_minutes`: whole minutes, truncated toward zero. -/
def num_minutes (d : Int) : Int := d.tdiv 60

/-- Embeds `impl fmt::Display for Activity`:
`write!(f, "{:>2} h {:>2} min: {}", hours, minutes % 60, name)`. -/
def Activity.display (a : Activity) : String :=
  alignRight2 (i64Str (num_hours a.duration)) ++ " h "
    ++ alignRight2 (i64Str ((num_minutes a.duration).tmod 60)) ++ " min: "
    ++ a.name

/-- Embeds `impl fmt::Display for Activities`: one `writeln!` per activity,
then the dashes line, then the two total lines, each newline-terminated. -/
def Activities.display (a : Activities) : String :=
  String.join (a.activities.map (fun x => Activity.display x ++ "\n"))
    ++ "-------\n"
    ++ ("Total work done: " ++ i64Str (num_hours a.total_work) ++ " h "
        ++ i64Str ((num_minutes a.total_work).tmod 60) ++ " min\n")
    ++ ("Total slacking: " ++ i64Str (num_hours a.total_slack) ++ " h "
        ++ i64Str ((num_minutes a.total_slack).tmod 60) ++ " min\n")

/-! Specification-side definitions, written from the spec's words, to be
compared with the embedded code. -/

/-- Sum of the intervals of a run of entries, given the previous stop. -/
def intervalSumFrom : Int → List Entry → Int
  | _, [] => 0
  | p, e :: rest => (e.stop - p) + intervalSumFrom e.stop rest

/-- Sum over i in 2..n of `stop[i] - stop[i-1]`: the first entry contributes
no interval, it only supplies the start boundary. -/
def intervalsTotal : List Entry → Int
  | [] => 0
  | e :: rest => intervalSumFrom e.stop rest

/-- Sum of the intervals of entries whose task carries the slack marker. -/
def slackIntervalSumFrom : Int → List Entry → Int
  | _, [] => 0
  | p, e :: rest =>
    (if startsWithStars e.task then e.stop - p else 0) + slackIntervalSumFrom e.stop rest

/-- Sum of the intervals of entries whose task does not carry the marker. -/
def workIntervalSumFrom : Int → List Entry → Int
  | _, [] => 0
  | p, e :: rest =>
    (if startsWithStars e.task then 0 else e.stop - p) + workIntervalSumFrom e.stop rest

/-- Slack part of the interval sum, skipping the first entry. -/
def slackIntervalsTotal : List Entry → Int
  | [] => 0
  | e :: rest => slackIntervalSumFrom e.stop rest

/-- Work part of the interval sum, skipping the first entry. -/
def workIntervalsTotal : List Entry → Int
  | [] => 0
  | e :: rest => workIntervalSumFrom e.stop rest

/-- Sum of the durations of a list of activities. -/
def durSum (l : List Activity) : Int := (l.map Activity.duration).sum

/-- Sum of the durations of the activities whose name carries the marker. -/
def slackDurSum (l : List Activity) : Int :=
  ((l.filter fun a => startsWithStars a.name).map Activity.duration).sum

/-- Sum of the durations of the activities whose name has no marker. -/
def workDurSum (l : List Activity) : Int :=
  ((l.filter fun a => !startsWithStars a.name).map Activity.duration).sum

/-- Modelled from the spec: record a task name, keeping the existing list
unchanged when the name is already present and appending it otherwise. -/
def insertName (ns : List String) (t : String) : List String :=
  if t ∈ ns then ns else ns ++ [t]

/-- Modelled from the spec: the distinct task names of a list, in order of
first occurrence. -/
def firstOccurrenceNames (ts : List String) : List String :=
  ts.foldl insertName []

/-! Helper lemmas about the aggregation loop. -/

lemma addToActivity_durSum (l : List Activity) (t : String) (d : Int) :
    durSum (addToActivity l t d) = durSum l + d := by
  induction l with
  | nil => simp [addToActivity, durSum]
  | cons a rest ih =>
    by_cases h : a.name = t
    · simp [addToActivity, h, durSum] at *
      ring
    · simp [addToActivity, h, durSum] at *
      omega

lemma loop_totals (es : List Entry) : ∀ (acc : Activities) (p : Int),
    (loop es acc (some p)).total_work + (loop es acc (some p)).total_slack
      = acc.total_work + acc.total_slack + intervalSumFrom p es := by
  induction es with
  | nil => intro acc p; simp [loop, intervalSumFrom]
  | cons e rest ih =>
    intro acc p
    simp only [loop, intervalSumFrom]
    by_cases h : startsWithStars e.task
    · rw [if_pos h, ih]; simp; ring
    · rw [if_neg h, ih]; simp; ring

lemma loop_durSum (es : List Entry) : ∀ (acc : Activities) (prev : Option Int),
    durSum (loop es acc prev).activities
        - ((loop es acc prev).total_work + (loop es acc prev).total_slack)
      = durSum acc.activities - (acc.total_work + acc.total_slack) := by
  induction es with
  | nil => intro acc prev; simp [loop]
  | cons e rest ih =>
    intro acc prev
    cases prev with
    | none => simpa only [loop] using ih acc (some e.stop)
    | some p =>
      simp only [loop]
      by_cases h : startsWithStars e.task
      · rw [if_pos h, ih]; simp [addToActivity_durSum]; ring
      · rw [if_neg h, ih]; simp [addToActivity_durSum]; ring

/-- C1: for every finite entry sequence, `total_work + total_slack` built by
`new_from_entries` equals the sum of all interval durations
`stop[i] - stop[i-1]` over i in 2..n; the first entry contributes none. -/
theorem totals_decompose (es : List Entry) :
    (Activities.new_from_entries es).total_work
        + (Activities.new_from_entries es).total_slack
      = intervalsTotal es := by
  cases es with
  | nil => rfl
  | cons e rest =>
    have h := loop_totals rest ⟨[], 0, 0⟩ e.stop
    simpa [Activities.new_from_entries, loop, intervalsTotal] using h

/-- C2: the sum of the `duration` fields of all activities built by
`new_from_entries` equals `total_work + total_slack`. -/
theorem activity_sum_eq_totals (es : List Entry) :
    durSum (Activities.new_from_entries es).activities
      = (Activities.new_from_entries es).total_work
        + (Activities.new_from_entries es).total_slack := by
  have h := loop_durSum es ⟨[], 0, 0⟩ none
  simp only [Activities.new_from_entries]
  simp only [durSum, List.map_nil, List.sum_nil] at h ⊢
  omega

/-- C8: the empty sequence and every single-entry sequence yield an empty
activity list and both totals zero; a lone entry only sets the start
boundary and its task label is discarded. -/
theorem empty_singleton_input :
    Activities.new_from_entries [] = ⟨[], 0, 0⟩
      ∧ ∀ e : Entry, Activities.new_from_entries [e] = ⟨[], 0, 0⟩ :=
  ⟨rfl, fun _ => rfl⟩

lemma loopChecked_eq (es : List Entry) : ∀ (acc : Activities) (prev : Option Int),
    loopChecked es acc prev = some (loop es acc prev) := by
  induction es with
  | nil => intro acc prev; rfl
  | cons e rest ih =>
    intro acc prev
    cases prev with
    | none => simpa only [loopChecked, loop, Option.isNone, if_true] using ih acc (some e.stop)
    | some p =>
      simp only [loopChecked, loop, Option.isNone, Bool.false_eq_true, if_false]
      by_cases h : startsWithStars e.task
      · rw [if_pos h, if_pos h, ih]
      · rw [if_neg h, if_neg h, ih]

/-- C9: construction never panics — the loop with the `unwrap` of
`prev_stop` modelled as a fallible operation always succeeds and returns
exactly `new_from_entries`; on decreasing timestamps the negative interval
is simply accumulated (here 3600 − 7200 = −3600 into `total_work`). -/
theorem new_from_entries_total :
    (∀ es : List Entry,
        loopChecked es ⟨[], 0, 0⟩ none = some (Activities.new_from_entries es))
      ∧ Activities.new_from_entries [⟨7200, "a"⟩, ⟨3600, "b"⟩]
          = ⟨[⟨"b", -3600⟩], -3600, 0⟩ :=
  ⟨fun es => loopChecked_eq es ⟨[], 0, 0⟩ none, by decide⟩

lemma addToActivity_names (l : List Activity) (t : String) (d : Int) :
    (addToActivity l t d).map Activity.name = insertName (l.map Activity.name) t := by
  induction l with
  | nil => simp [addToActivity, insertName]
  | cons a rest ih =>
    by_cases h : a.name = t
    · subst h
      simp [addToActivity, insertName]
    · by_cases hm : t ∈ rest.map Activity.name
      · simp [addToActivity, h, insertName, ih, hm, Ne.symm h]
      · simp [addToActivity, h, insertName, ih, hm, Ne.symm h]

lemma foldl_insertName_nodup (ts : List String) : ∀ ns : List String,
    ns.Nodup → (ts.foldl insertName ns).Nodup := by
  induction ts with
  | nil => intro ns h; simpa
  | cons t rest ih =>
    intro ns h
    rw [List.foldl_cons]
    refine ih _ ?_
    unfold insertName
    by_cases hm : t ∈ ns
    · simpa [hm]
    · simp [hm, List.nodup_append, h]

lemma mem_foldl_insertName (ts : List String) : ∀ (ns : List String) (x : String),
    x ∈ ts.foldl insertName ns ↔ x ∈ ns ∨ x ∈ ts := by
  induction ts with
  | nil => simp
  | cons t rest ih =>
    intro ns x
    rw [List.foldl_cons, ih]
    unfold insertName
    by_cases hm : t ∈ ns
    · rw [if_pos hm]
      simp only [List.mem_cons]
      constructor
      · tauto
      · rintro (h | rfl | h) <;> tauto
    · rw [if_neg hm]
      simp only [List.mem_append, List.mem_singleton, List.mem_cons]
      tauto

lemma loop_names (es : List Entry) : ∀ (acc : Activities) (p : Int),
    (loop es acc (some p)).activities.map Activity.name
      = (es.map Entry.task).foldl insertName (acc.activities.map Activity.name) := by
  induction es with
  | nil => intro acc p; simp [loop]
  | cons e rest ih =>
    intro acc p
    simp only [loop, List.map_cons, List.foldl_cons]
    by_cases h : startsWithStars e.task
    · rw [if_pos h, ih]
      simp [addToActivity_names]
    · rw [if_neg h, ih]
      simp [addToActivity_names]

/-- C3: the activity list holds exactly one Activity per distinct task name
of entries 2..n (exact equality, marker included), in first-occurrence
order: its name list equals the fold that keeps an existing name in place
and appends a new name at the end, it has no duplicates, and a name occurs
in it iff it occurs among the tasks of entries 2..n. -/
theorem first_occurrence_order (es : List Entry) :
    (Activities.new_from_entries es).activities.map Activity.name
        = firstOccurrenceNames ((es.drop 1).map Entry.task)
      ∧ ((Activities.new_from_entries es).activities.map Activity.name).Nodup
      ∧ ∀ t, t ∈ (Activities.new_from_entries es).activities.map Activity.name
          ↔ t ∈ (es.drop 1).map Entry.task := by
  have hmain : (Activities.new_from_entries es).activities.map Activity.name
      = firstOccurrenceNames ((es.drop 1).map Entry.task) := by
    cases es with
    | nil => rfl
    | cons e rest =>
      have h := loop_names rest ⟨[], 0, 0⟩ e.stop
      simpa [Activities.new_from_entries, loop, firstOccurrenceNames] using h
  refine ⟨hmain, ?_, ?_⟩
  · rw [hmain]
    exact foldl_insertName_nodup _ [] List.nodup_nil
  · intro t
    rw [hmain]
    unfold firstOccurrenceNames
    rw [mem_foldl_insertName]
    simp

lemma slackDurSum_cons (a : Activity) (l : List Activity) :
    slackDurSum (a :: l)
      = (if startsWithStars a.name then a.duration else 0) + slackDurSum l := by
  by_cases h : startsWithStars a.name <;> simp [slackDurSum, h]

lemma workDurSum_cons (a : Activity) (l : List Activity) :
    workDurSum (a :: l)
      = (if startsWithStars a.name then 0 else a.duration) + workDurSum l := by
  by_cases h : startsWithStars a.name <;> simp [workDurSum, h]

lemma addToActivity_slackDurSum (l : List Activity) (t : String) (d : Int) :
    slackDurSum (addToActivity l t d)
      = slackDurSum l + (if startsWithStars t then d else 0) := by
  induction l with
  | nil =>
    by_cases h : startsWithStars t <;> simp [addToActivity, slackDurSum, h]
  | cons a rest ih =>
    by_cases h : a.name = t
    · subst h
      have hup : addToActivity (a :: rest) a.name d
          = ⟨a.name, a.duration + d⟩ :: rest := by simp [addToActivity]
      rw [hup, slackDurSum_cons, slackDurSum_cons]
      dsimp only
      by_cases hs : startsWithStars a.name <;> (simp [hs]; try ring)
    · simp only [addToActivity, if_neg h]
      rw [slackDurSum_cons, slackDurSum_cons, ih]
      ring

lemma addToActivity_workDurSum (l : List Activity) (t : String) (d : Int) :
    workDurSum (addToActivity l t d)
      = workDurSum l + (if startsWithStars t then 0 else d) := by
  induction l with
  | nil =>
    by_cases h : startsWithStars t <;> simp [addToActivity, workDurSum, h]
  | cons a rest ih =>
    by_cases h : a.name = t
    · subst h
      have hup : addToActivity (a :: rest) a.name d
          = ⟨a.name, a.duration + d⟩ :: rest := by simp [addToActivity]
      rw [hup, workDurSum_cons, workDurSum_cons]
      dsimp only
      by_cases hs : startsWithStars a.name <;> (simp [hs]; try ring)
    · simp only [addToActivity, if_neg h]
      rw [workDurSum_cons, workDurSum_cons, ih]
      ring

lemma loop_slack_work (es : List Entry) : ∀ (acc : Activities) (p : Int),
    (loop es acc (some p)).total_slack = acc.total_slack + slackIntervalSumFrom p es
      ∧ (loop es acc (some p)).total_work = acc.total_work + workIntervalSumFrom p es
      ∧ slackDurSum (loop es acc (some p)).activities - (loop es acc (some p)).total_slack
          = slackDurSum acc.activities - acc.total_slack
      ∧ workDurSum (loop es acc (some p)).activities - (loop es acc (some p)).total_work
          = workDurSum acc.activities - acc.total_work := by
  induction es with
  | nil => intro acc p; simp [loop, slackIntervalSumFrom, workIntervalSumFrom]
  | cons e rest ih =>
    intro acc p
    simp only [loop, slackIntervalSumFrom, workIntervalSumFrom]
    by_cases h : startsWithStars e.task
    · rw [if_pos h, if_pos h, if_pos h]
      obtain ⟨h1, h2, h3, h4⟩ := ih ⟨addToActivity acc.activities e.task (e.stop - p),
        acc.total_work, acc.total_slack + (e.stop - p)⟩ e.stop
      dsimp only at h1 h2 h3 h4
      rw [addToActivity_slackDurSum] at h3
      rw [addToActivity_workDurSum] at h4
      simp [h] at h3 h4
      refine ⟨by omega, by omega, by omega, by omega⟩
    · rw [if_neg h, if_neg h, if_neg h]
      obtain ⟨h1, h2, h3, h4⟩ := ih ⟨addToActivity acc.activities e.task (e.stop - p),
        acc.total_work + (e.stop - p), acc.total_slack⟩ e.stop
      dsimp only at h1 h2 h3 h4
      rw [addToActivity_slackDurSum] at h3
      rw [addToActivity_workDurSum] at h4
      simp [h] at h3 h4
      refine ⟨by omega, by omega, by omega, by omega⟩

/-- C4: an interval goes to `total_slack` iff its entry's task starts with
the `**` marker and to `total_work` otherwise; consequently the marker-named
activities sum to exactly `total_slack` and the remaining activities sum to
exactly `total_work`. -/
theorem slack_classification (es : List Entry) :
    (Activities.new_from_entries es).total_slack = slackIntervalsTotal es
      ∧ (Activities.new_from_entries es).total_work = workIntervalsTotal es
      ∧ slackDurSum (Activities.new_from_entries es).activities
          = (Activities.new_from_entries es).total_slack
      ∧ workDurSum (Activities.new_from_entries es).activities
          = (Activities.new_from_entries es).total_work := by
  cases es with
  | nil =>
    refine ⟨rfl, rfl, rfl, rfl⟩
  | cons e rest =>
    obtain ⟨h1, h2, h3, h4⟩ := loop_slack_work rest ⟨[], 0, 0⟩ e.stop
    have hs : slackDurSum ([] : List Activity) = 0 := rfl
    have hw : workDurSum ([] : List Activity) = 0 := rfl
    simp only [Activities.new_from_entries, loop, slackIntervalsTotal, workIntervalsTotal]
    simp only [hs, hw] at h3 h4
    refine ⟨by simpa using h1, by simpa using h2, by omega, by omega⟩

/-! Decimal-digit length facts, used for the width-2 alignment contract. -/

lemma toDigitsCore_length_ge (gas : Nat) : ∀ (n : Nat) (ds : List Char),
    0 < gas → ds.length + 1 ≤ (Nat.toDigitsCore 10 gas n ds).length := by
  induction gas with
  | zero => intro n ds h; exact absurd h (lt_irrefl 0)
  | succ g ih =>
    intro n ds _
    simp only [Nat.toDigitsCore]
    by_cases h : n / 10 = 0
    · simp [h]
    · rw [if_neg h]
      cases g with
      | zero => simp [Nat.toDigitsCore]
      | succ g2 =>
        have hrec := ih (n / 10) (Nat.digitChar (n % 10) :: ds) (Nat.succ_pos g2)
        simp only [List.length_cons] at hrec
        omega

lemma repr_length_ge_two (n : Nat) (h : 10 ≤ n) : 2 ≤ (Nat.repr n).length := by
  have h0 : ¬ n / 10 = 0 := by
    have h1 : 10 ≤ n → 1 ≤ n / 10 := fun hn => (Nat.one_le_div_iff (by norm_num)).mpr hn
    have := h1 h
    omega
  have hrepr : Nat.repr n = (Nat.toDigitsCore 10 (n + 1) n []).asString := rfl
  have hlen : ∀ l : List Char, (List.asString l).length = l.length := fun _ => rfl
  have hstep : Nat.toDigitsCore 10 (n + 1) n []
      = Nat.toDigitsCore 10 n (n / 10) [Nat.digitChar (n % 10)] := by
    simp only [Nat.toDigitsCore]
    rw [if_neg h0]
  rw [hrepr, hlen, hstep]
  calc 2 = [Nat.digitChar (n % 10)].length + 1 := rfl
    _ ≤ (Nat.toDigitsCore 10 n (n / 10) [Nat.digitChar (n % 10)]).length :=
      toDigitsCore_length_ge n (n / 10) [Nat.digitChar (n % 10)] (by omega)

lemma repr_length_of_le_nine (n : Nat) (h : n ≤ 9) : (Nat.repr n).length = 1 := by
  interval_cases n <;> rfl

/-- Modelled from the spec: width-2 right alignment of a field value —
values 0–9 get one leading space, larger values print unpadded (the field
widens, no truncation). -/
def specField2 (v : Int) : String :=
  if 0 ≤ v ∧ v ≤ 9 then " " ++ i64Str v else i64Str v

/-- Modelled from the spec: the §4.1 Activity line rendering contract,
with hours the truncating integer total-hours and minutes the truncating
integer total-minutes mod 60. -/
def specActivityLine (nm : String) (d : Int) : String :=
  specField2 (d.tdiv 3600) ++ " h " ++ specField2 ((d.tdiv 60).tmod 60) ++ " min: " ++ nm

lemma alignRight2_eq_specField2 (v : Int) (h : 0 ≤ v) :
    alignRight2 (i64Str v) = specField2 v := by
  have hstr : i64Str v = Nat.repr v.natAbs := by
    unfold i64Str
    rw [if_neg (by omega)]
  by_cases h9 : v ≤ 9
  · have hlen : (Nat.repr v.natAbs).length = 1 :=
      repr_length_of_le_nine v.natAbs (by omega)
    have hone : String.mk (List.replicate 1 ' ') = " " := rfl
    unfold alignRight2 specField2
    rw [hstr, hlen, if_pos ⟨h, h9⟩, show (2 : Nat) - 1 = 1 from rfl, hone]
  · have hlen : 2 ≤ (Nat.repr v.natAbs).length :=
      repr_length_ge_two v.natAbs (by omega)
    have hnil : ∀ s : String, String.mk [] ++ s = s := fun s => by cases s; rfl
    unfold alignRight2 specField2
    rw [hstr, if_neg (by omega), Nat.sub_eq_zero_of_le hlen, List.replicate_zero, hnil]

/-- C5: for a non-negative duration, the Activity line is rendered exactly
per the spec contract — truncating hours, minutes mod 60, width-2 right
alignment with space padding for one-digit values and widening (never
truncation or rounding) for larger ones. -/
theorem activity_display_contract (nm : String) (d : Int) (h : 0 ≤ d) :
    Activity.display ⟨nm, d⟩ = specActivityLine nm d := by
  unfold Activity.display specActivityLine num_hours num_minutes
  dsimp only
  rw [alignRight2_eq_specField2 _ (Int.tdiv_nonneg h (by norm_num)),
    alignRight2_eq_specField2 _ (Int.tmod_nonneg 60 (Int.tdiv_nonneg h (by norm_num)))]

/-- Witness for C5: the contract applied at the spec's example durations of
3 minutes, 60 minutes and 1381 minutes (in seconds), with the spec-side
rendering evaluated to the exact expected lines. -/
theorem activity_display_contract_witness :
    (0 ≤ (180 : Int) ∧ Activity.display ⟨"code this", 180⟩ = " 0 h  3 min: code this")
      ∧ (0 ≤ (3600 : Int) ∧ Activity.display ⟨"code this", 3600⟩ = " 1 h  0 min: code this")
      ∧ (0 ≤ (82860 : Int) ∧ Activity.display ⟨"code this", 82860⟩ = "23 h  1 min: code this") := by
  refine ⟨⟨by decide, ?_⟩, ⟨by decide, ?_⟩, ⟨by decide, ?_⟩⟩ <;>
    rw [activity_display_contract _ _ (by decide)] <;> decide

/-- Modelled from the spec: the §4.3 report line list — one line per
activity in order, a seven-dash separator, then the work-total and
slack-total lines with hours and minutes as plain unpadded integers. -/
def specReportLines (a : Activities) : List String :=
  a.activities.map Activity.display
    ++ ["-------",
        "Total work done: " ++ i64Str (a.total_work.tdiv 3600) ++ " h "
          ++ i64Str ((a.total_work.tdiv 60).tmod 60) ++ " min",
        "Total slacking: " ++ i64Str (a.total_slack.tdiv 3600) ++ " h "
          ++ i64Str ((a.total_slack.tdiv 60).tmod 60) ++ " min"]

lemma join_append (l1 l2 : List String) :
    String.join (l1 ++ l2) = String.join l1 ++ String.join l2 := by
  have hmk : ∀ a b : List Char, String.mk a ++ String.mk b = String.mk (a ++ b) :=
    fun _ _ => rfl
  simp [String.join_eq, List.map_append, List.flatten_append, hmk]

/-- C6: the full report rendering is exactly the report lines in order —
activity lines, the seven-dash separator, the two total lines — each
followed by one newline, with nothing after the slack line. -/
theorem activities_display_contract (a : Activities) :
    Activities.display a = String.join ((specReportLines a).map fun s => s ++ "\n") := by
  have hnil : ∀ s : String, "" ++ s = s := fun s => by cases s; rfl
  have hmin : (" min" : String) ++ "\n" = " min\n" := rfl
  have hdash : ("-------" : String) ++ "\n" = "-------\n" := rfl
  unfold Activities.display specReportLines num_hours num_minutes
  rw [List.map_append, join_append, List.map_map]
  simp only [String.join, List.map_cons, List.map_nil, List.foldl_cons, List.foldl_nil,
    Function.comp_def]
  rw [hnil]
  simp only [String.append_assoc, hmin, hdash]

/-- The ten-entry example day of the spec (§8 P6), which is also the
repository's `DAY_LOG` test fixture: timestamps as seconds since midnight
of 2022-06-10. -/
def exampleEntries : List Entry :=
  [⟨25200, "arrived"⟩, ⟨31500, "gtimelog: code"⟩, ⟨32400, "** tea"⟩,
   ⟨43500, "gtimelog: code"⟩, ⟨45300, "customer joe: inquiry"⟩,
   ⟨47700, "** lunch"⟩, ⟨50400, "code"⟩, ⟨54000, "bug triage"⟩,
   ⟨54600, "** tea"⟩, ⟨57600, "customer joe: support"⟩]

set_option maxRecDepth 40000 in
/-- C7: on the fixed example day the construction yields exactly 7
activities, 475 minutes of work, 65 minutes of slack, a first activity
named "gtimelog: code" of 4 h 50 min, and exactly the ten-line report text
given in the spec. -/
theorem example_day_report :
    (Activities.new_from_entries exampleEntries).activities.length = 7
      ∧ (Activities.new_from_entries exampleEntries).total_work = 475 * 60
      ∧ (Activities.new_from_entries exampleEntries).total_slack = 65 * 60
      ∧ (Activities.new_from_entries exampleEntries).activities.head?
          = some ⟨"gtimelog: code", 4 * 3600 + 50 * 60⟩
      ∧ (Activities.new_from_entries exampleEntries).display
          = " 4 h 50 min: gtimelog: code\n 0 h 25 min: ** tea\n 0 h 30 min: customer joe: inquiry\n 0 h 40 min: ** lunch\n 0 h 45 min: code\n 1 h  0 min: bug triage\n 0 h 50 min: customer joe: support\n-------\nTotal work done: 7 h 55 min\nTotal slacking: 1 h 5 min\n" := by
  decide

lemma append_lastChar (s t : String) (h : t.data.getLast? = some '\n') :
    (s ++ t).data.getLast? = some '\n' := by
  have hne : t.data ≠ [] := by intro hnil; rw [hnil] at h; simp at h
  rw [String.data_append, List.getLast?_append_of_ne_nil _ hne]
  exact h

/-- C10: the rendered report always ends with a newline character: the
slack-total line, like every line before it, carries a trailing line
break. -/
theorem display_ends_with_newline (a : Activities) :
    (Activities.display a).data.getLast? = some '\n' := by
  unfold Activities.display
  apply append_lastChar
  apply append_lastChar
  rfl

end Rtimelog
